import Mathlib

/-!
Verification of the generic-ring polynomial layer (src/gr/polynomial.c).

The polynomial ring over a generic base ring is embedded shallowly:

* an element of the base ring is a value of a commutative ring `R`
  (Mathlib `CommRing`); the effectful parts of the base-ring contract
  (zero testing, which may be undecidable, and exact scalar division,
  which may fail) are carried in a `BaseModel R` record of functions;
* a polynomial is a dense coefficient list `List R`, index 0 being the
  constant term, as in `gr_poly_struct`;
* the three-valued operation outcome `int status` is the type `Status`
  (`GR_SUCCESS = 0`, `GR_DOMAIN = 1`, `GR_UNABLE = 2`, and the bitwise
  OR `GR_DOMAIN | GR_UNABLE = 3` is `Status.domainUnable`);
* the `truth_t` type is `Truth` (`T_TRUE`, `T_FALSE`, `T_UNKNOWN`);
* external collaborators that are declared but not defined in the
  analyzed source (the `gr_poly_*` coefficient-level primitives, the
  foreign-ring conversion routines, generic powering) are modelled from
  the specification; each such definition says so in its doc comment.

Functions translated from the source keep their C names.
-/

open Polynomial

/-- The `truth_t` three-valued logic type of the generic-ring framework:
`T_TRUE`, `T_FALSE`, `T_UNKNOWN`. -/
inductive Truth where
  | t
  | f
  | u
deriving DecidableEq

/-- Three-valued conjunction used when folding zero tests over a
coefficient vector: any `T_FALSE` dominates, otherwise any `T_UNKNOWN`
dominates, otherwise `T_TRUE`. -/
def Truth.and : Truth → Truth → Truth
  | Truth.f, _ => Truth.f
  | _, Truth.f => Truth.f
  | Truth.t, Truth.t => Truth.t
  | _, _ => Truth.u

/-- Operation outcome codes: `GR_SUCCESS`, `GR_DOMAIN`, `GR_UNABLE`,
and the accumulated combination `GR_DOMAIN | GR_UNABLE`. -/
inductive Status where
  | success
  | domain
  | unable
  | domainUnable
deriving DecidableEq

/-- Accumulation of outcomes by bitwise OR of the C codes
(`status |= ...`): success is the identity, and domain and unable
combine into `domainUnable`. -/
def Status.join : Status → Status → Status
  | Status.success, b => b
  | a, Status.success => a
  | Status.domain, Status.domain => Status.domain
  | Status.domain, _ => Status.domainUnable
  | Status.unable, Status.unable => Status.unable
  | Status.unable, _ => Status.domainUnable
  | Status.domainUnable, _ => Status.domainUnable

/-- The status that `polynomial_div` derives from the zero test of the
long-division remainder: provably zero keeps `GR_SUCCESS`, provably
nonzero gives `GR_DOMAIN`, undecidable gives `GR_UNABLE`. -/
def statusOfTruth : Truth → Status
  | Truth.t => Status.success
  | Truth.f => Status.domain
  | Truth.u => Status.unable

/-- Model of a base-ring context (`POLYNOMIAL_ELEM_CTX`): the pure ring
structure is the ambient `CommRing R`; this record carries the
effectful and structural parts of the base ring contract that the
polynomial layer dispatches into. -/
structure BaseModel (R : Type) where
  /-- Zero test of the base ring (`gr_is_zero`); may be undecidable. -/
  isZero : R → Truth
  /-- Exact division in the base ring (`gr_div`): returns a status and,
  on success, a quotient. -/
  sdiv : R → R → Status × R
  /-- Partial image of a big rational in the base ring (`gr_set_fmpq`);
  may fail when the ring cannot represent the rational. -/
  setFmpq : Rat → Status × R
  /-- Structural predicate of the base ring (`gr_ctx_is_ring`). -/
  is_ring : Truth
  /-- Structural predicate (`gr_ctx_is_commutative_ring`). -/
  is_commutative_ring : Truth
  /-- Structural predicate (`gr_ctx_is_integral_domain`). -/
  is_integral_domain : Truth
  /-- Structural predicate (`gr_ctx_is_unique_factorization_domain`). -/
  is_ufd : Truth
  /-- Structural predicate (`gr_ctx_is_rational_vector_space`). -/
  is_rational_vector_space : Truth
  /-- Structural predicate (`gr_ctx_is_real_vector_space`). -/
  is_real_vector_space : Truth
  /-- Structural predicate (`gr_ctx_is_complex_vector_space`). -/
  is_complex_vector_space : Truth
  /-- Structural predicate (`gr_ctx_is_threadsafe`). -/
  is_threadsafe : Truth

section ListOps

variable {R : Type} [CommRing R]

/-- Pointwise addition of dense coefficient lists, padding the shorter
operand with zeros (the coefficient loop of `gr_poly_add`). -/
def ladd : List R → List R → List R
  | xs, [] => xs
  | [], y :: ys => y :: ladd [] ys
  | x :: xs, y :: ys => (x + y) :: ladd xs ys

/-- Pointwise subtraction of dense coefficient lists, padding the
shorter operand with zeros (the coefficient loop of `gr_poly_sub`). -/
def lsub : List R → List R → List R
  | xs, [] => xs
  | [], y :: ys => (0 - y) :: lsub [] ys
  | x :: xs, y :: ys => (x - y) :: lsub xs ys

/-- Shift a coefficient list up by `n` places: multiplication by the
`n`-th power of the indeterminate. -/
def shift (n : Nat) (l : List R) : List R :=
  List.replicate n 0 ++ l

/-- Multiply every coefficient by a fixed base-ring element on the
left. -/
def scale (c : R) (l : List R) : List R :=
  l.map fun a => c * a

/-- Coefficient `k` of the dense product of two coefficient lists. -/
def convCoeff (p1 p2 : List R) (k : Nat) : R :=
  (Finset.range (k + 1)).sum fun i => p1.getD i 0 * p2.getD (k - i) 0

end ListOps

section Normalise

variable {R : Type}

/-- Normalization (`_gr_poly_normalise`): repeatedly drop the top
coefficient while the base ring proves it zero; a coefficient whose
zero-ness is `T_FALSE` or `T_UNKNOWN` is conservatively kept. -/
def normalise (B : BaseModel R) : List R → List R
  | [] => []
  | a :: l =>
    match normalise B l with
    | [] => if B.isZero a = Truth.t then [] else [a]
    | b :: l2 => a :: (b :: l2)

/-- Zero test of a whole polynomial (`gr_poly_is_zero`, which folds the
base-ring zero test over the coefficient vector). -/
def polyIsZero (B : BaseModel R) (l : List R) : Truth :=
  l.foldr (fun a acc => Truth.and (B.isZero a) acc) Truth.t

end Normalise

section Denotation

variable {R : Type} [CommRing R]

/-- Denotation of a dense coefficient list as a polynomial over `R`
(index 0 is the constant term). This is the specification-side meaning
of the representation, used only in correctness statements. -/
noncomputable def toPoly : List R → Polynomial R
  | [] => 0
  | a :: l => Polynomial.C a + toPoly l * Polynomial.X

end Denotation

/-- The `which_ring` tag of a generic-ring context, restricted to the
tags that `polynomial_set_other`, `polynomial_mul_other` and
`polynomial_other_mul` compare against: `GR_CTX_GR_POLY`,
`GR_CTX_FMPZ_POLY`, `GR_CTX_FMPQ_POLY`, `GR_CTX_GR_VEC`, and an opaque
code for every other kind. -/
inductive WhichRing where
  | grPoly
  | fmpzPoly
  | fmpqPoly
  | grVec
  | other (code : Nat)
deriving DecidableEq

/-- Model of a foreign operand `(x, x_ctx)` as received by the coercion
and mixed-multiplication entry points. The context side carries what
the dispatch conditions inspect: the context pointer identity
(`x_ctx == ctx` and `x_ctx == POLYNOMIAL_ELEM_CTX(ctx)` are pointer
comparisons), the `which_ring` tag, the base-ring pointer
(`POLYNOMIAL_ELEM_CTX(x_ctx)`, also the `gr_vec` base ring), and the
generator name. The value side carries the payload under each possible
reading: as a polynomial over `R` (meaningful when the foreign context
is this context or a compatible polynomial context over the same base
ring), as a base-ring scalar, as an `fmpz_poly`/`fmpq_poly` coefficient
list, and as an opaque word handed to foreign conversion routines. -/
structure OtherArg (R : Type) where
  ctxPtr : Nat
  elemPtr : Nat
  ring : WhichRing
  var : String
  polyVal : List R
  scalarVal : R
  intPolyVal : List Int
  ratPolyVal : List Rat
  raw : Nat

/-- External conversion and powering collaborators dispatched to by the
polynomial layer but defined outside the analyzed source. Each field is
modelled from the spec as an opaque function the development is
parametric in. -/
structure CoercePrims (R : Type) where
  /-- Modelled from the spec: `gr_poly_set_gr_poly_other`, the
  coefficient-wise recursive coercion from a polynomial (or vector
  entry sequence) over a foreign base ring, identified by the foreign
  base-ring pointer and the opaque payload. -/
  setGrPolyOther : Nat → Nat → Status × List R
  /-- Modelled from the spec: `gr_poly_set_fmpz_poly`, bulk conversion
  from a big-integer polynomial. -/
  setFmpzPoly : List Int → Status × List R
  /-- Modelled from the spec: `gr_poly_set_fmpq_poly`, bulk conversion
  from a big-rational polynomial. -/
  setFmpqPoly : List Rat → Status × List R
  /-- Modelled from the spec: `gr_set_other`, coercion of an arbitrary
  foreign value into a single base-ring element. -/
  coerceScalar : OtherArg R → Status × R
  /-- Modelled from the spec: `gr_poly_pow_fmpz`, powering by an
  arbitrary-precision integer exponent via repeated squaring. -/
  powFmpz : List R → Int → Status × List R

/-- Model of a polynomial-ring context (`POLYNOMIAL_CTX(ctx)` together
with the identity of the context and of its base ring): context pointer
identity, base-ring pointer identity, the base-ring model, the
generator name `var`, the optional degree ceiling (`degree_limit`,
where `none` stands for the unbounded default `WORD_MAX`), and the
external collaborators. -/
structure PolyRingCtx (R : Type) where
  ptr : Nat
  elemPtr : Nat
  base : BaseModel R
  var : String
  degree_limit : Option Nat
  prims : CoercePrims R

section ExternalPrims

variable {R : Type} [CommRing R]

/-- Modelled from the spec: `gr_poly_set_scalar` wraps a base-ring
element as a constant polynomial, normalizing so that a provably zero
scalar gives the zero polynomial. -/
def gr_poly_set_scalar (B : BaseModel R) (a : R) : Status × List R :=
  (Status.success, normalise B [a])

/-- The degree-0 polynomial built from a base-ring element; the
coefficient-list half of `gr_poly_set_scalar`. -/
def constPoly (B : BaseModel R) (a : R) : List R :=
  normalise B [a]

/-- Modelled from the spec: `gr_poly_add` adds coefficient by
coefficient up to the shorter length plus the tail of the longer, then
normalizes; coefficient additions in a `CommRing` always succeed. -/
def gr_poly_add (B : BaseModel R) (p1 p2 : List R) : Status × List R :=
  (Status.success, normalise B (ladd p1 p2))

/-- Modelled from the spec: `gr_poly_sub`, as `gr_poly_add` with
base-ring subtraction. -/
def gr_poly_sub (B : BaseModel R) (p1 p2 : List R) : Status × List R :=
  (Status.success, normalise B (lsub p1 p2))

/-- Modelled from the spec: `gr_poly_mul` computes the dense
convolution over the base ring and normalizes; the product of a zero
operand is the zero polynomial. -/
def gr_poly_mul (B : BaseModel R) (p1 p2 : List R) : Status × List R :=
  if p1.length = 0 ∨ p2.length = 0 then (Status.success, [])
  else
    (Status.success,
      normalise B ((List.range (p1.length + p2.length - 1)).map (convCoeff p1 p2)))

/-- Modelled from the spec: `gr_poly_mul_scalar` multiplies every
coefficient on the right by a base-ring element and normalizes. -/
def gr_poly_mul_scalar (B : BaseModel R) (p : List R) (a : R) : Status × List R :=
  (Status.success, normalise B (p.map fun b => b * a))

/-- Modelled from the spec: `gr_poly_scalar_mul` multiplies every
coefficient on the left by a base-ring element and normalizes. -/
def gr_poly_scalar_mul (B : BaseModel R) (a : R) (p : List R) : Status × List R :=
  (Status.success, normalise B (p.map fun b => a * b))

/-- Modelled from the spec: the scalar-addition primitives
(`gr_poly_add_ui` and relatives) add the scalar image to the constant
coefficient and normalize. -/
def gr_poly_add_scalar (B : BaseModel R) (p : List R) (a : R) : Status × List R :=
  (Status.success, normalise B (ladd p [a]))

/-- Modelled from the spec: the scalar-subtraction primitives
(`gr_poly_sub_ui` and relatives) subtract the scalar image from the
constant coefficient and normalize. -/
def gr_poly_sub_scalar (B : BaseModel R) (p : List R) (a : R) : Status × List R :=
  (Status.success, normalise B (lsub p [a]))

/-- Modelled from the spec: `gr_poly_set_fmpq` converts a big rational
into the base ring and wraps the image as a normalized degree-0
polynomial; a failing conversion is propagated with the zero
polynomial. -/
def gr_poly_set_fmpq (B : BaseModel R) (c : Rat) : Status × List R :=
  match B.setFmpq c with
  | (Status.success, a) => (Status.success, normalise B [a])
  | (s, _) => (s, [])

/-- Modelled from the spec: `gr_poly_add_fmpq` converts the rational
into the base ring and adds the image to the constant coefficient; a
failing conversion is propagated. -/
def gr_poly_add_fmpq (B : BaseModel R) (p : List R) (c : Rat) : Status × List R :=
  match B.setFmpq c with
  | (Status.success, a) => gr_poly_add_scalar B p a
  | (s, _) => (s, [])

/-- Modelled from the spec: `gr_poly_sub_fmpq`, as `gr_poly_add_fmpq`
with subtraction. -/
def gr_poly_sub_fmpq (B : BaseModel R) (p : List R) (c : Rat) : Status × List R :=
  match B.setFmpq c with
  | (Status.success, a) => gr_poly_sub_scalar B p a
  | (s, _) => (s, [])

/-- Modelled from the spec: `gr_poly_mul_fmpq` converts the rational
into the base ring and multiplies every coefficient by the image; a
failing conversion is propagated. -/
def gr_poly_mul_fmpq (B : BaseModel R) (p : List R) (c : Rat) : Status × List R :=
  match B.setFmpq c with
  | (Status.success, a) => gr_poly_mul_scalar B p a
  | (s, _) => (s, [])

/-- Modelled from the spec: `gr_poly_div_scalar` divides every
coefficient by the scalar via the base ring, accumulates the worst
status, and normalizes. -/
def gr_poly_div_scalar (B : BaseModel R) (x : List R) (c : R) : Status × List R :=
  (((x.map fun a => (B.sdiv a c).1).foldl Status.join Status.success),
    normalise B (x.map fun a => (B.sdiv a c).2))

/-- Modelled from the spec: the working loop of polynomial long
division. The argument `n` counts the quotient coefficients still to be
produced; the running dividend `r` satisfies
`r.length + 1 = y.length + n`. Each step divides the leading
coefficient of `r` by the leading coefficient of `y` in the base ring,
records the result as the next quotient coefficient, cancels the top
term, and recurses; a failing base-ring division aborts with its
status. -/
def divremAux (B : BaseModel R) (y : List R) : Nat → List R → Status × (List R × List R)
  | 0, r => (Status.success, ([], r))
  | n + 1, r =>
    match B.sdiv (r.getD (r.length - 1) 0) (y.getD (y.length - 1) 0) with
    | (Status.success, c) =>
      match divremAux B y n ((lsub r (shift n (scale c y))).take (y.length + n - 1)) with
      | (s, (q, rr)) => (s, (q ++ [c], rr))
    | (s, _) => (s, ([], r))

/-- Modelled from the spec: `gr_poly_divrem`, quotient and remainder by
polynomial long division over the base ring. Division by the zero
polynomial is a domain error; a dividend shorter than the divisor gives
a zero quotient and itself as remainder; otherwise the long-division
loop runs and the results are normalized. -/
def gr_poly_divrem (B : BaseModel R) (x y : List R) : Status × (List R × List R) :=
  if y.length = 0 then (Status.domain, ([], []))
  else if x.length < y.length then (Status.success, ([], x))
  else
    match divremAux B y (x.length - y.length + 1) x with
    | (s, (q, r)) => (s, (normalise B q, normalise B r))

end ExternalPrims

section SourceFunctions

variable {R : Type} [CommRing R]

/-- Source `polynomial_ctx_is_ring`: forwarded to the base ring. -/
def polynomial_ctx_is_ring (P : PolyRingCtx R) : Truth :=
  P.base.is_ring

/-- Source `polynomial_ctx_is_commutative_ring`: forwarded to the base
ring. -/
def polynomial_ctx_is_commutative_ring (P : PolyRingCtx R) : Truth :=
  P.base.is_commutative_ring

/-- Source `polynomial_ctx_is_integral_domain`: forwarded to the base
ring. -/
def polynomial_ctx_is_integral_domain (P : PolyRingCtx R) : Truth :=
  P.base.is_integral_domain

/-- Source `polynomial_ctx_is_unique_factorization_domain`: forwarded
to the base ring. -/
def polynomial_ctx_is_unique_factorization_domain (P : PolyRingCtx R) : Truth :=
  P.base.is_ufd

/-- Source `polynomial_ctx_is_rational_vector_space`: forwarded to the
base ring. -/
def polynomial_ctx_is_rational_vector_space (P : PolyRingCtx R) : Truth :=
  P.base.is_rational_vector_space

/-- Source `polynomial_ctx_is_real_vector_space`: forwarded to the base
ring. -/
def polynomial_ctx_is_real_vector_space (P : PolyRingCtx R) : Truth :=
  P.base.is_real_vector_space

/-- Source `polynomial_ctx_is_complex_vector_space`: forwarded to the
base ring. -/
def polynomial_ctx_is_complex_vector_space (P : PolyRingCtx R) : Truth :=
  P.base.is_complex_vector_space

/-- Source `polynomial_ctx_is_threadsafe`: forwarded to the base
ring. -/
def polynomial_ctx_is_threadsafe (P : PolyRingCtx R) : Truth :=
  P.base.is_threadsafe

/-- Modelled from the spec: `gr_generic_ctx_predicate_false`, the
generic predicate that always answers `T_FALSE`; the method table binds
it to `GR_METHOD_CTX_IS_FIELD`. -/
def gr_generic_ctx_predicate_false : Truth :=
  Truth.f

/-- The `GR_METHOD_CTX_IS_FIELD` entry of the polynomial method table:
the generic always-false predicate, independent of the base ring. -/
def polynomial_ctx_is_field (_P : PolyRingCtx R) : Truth :=
  gr_generic_ctx_predicate_false

/-- Source `_gr_gr_poly_ctx_set_gen_name`: replace the generator name
with (an owned copy of) the given string; always succeeds. The
ownership bookkeeping of the C code (freeing a previous owned name,
never freeing the shared default) is memory management with no
observable effect in the value model. -/
def _gr_gr_poly_ctx_set_gen_name (P : PolyRingCtx R) (s : String) :
    Status × PolyRingCtx R :=
  (Status.success, { P with var := s })

/-- Source `_gr_gr_poly_ctx_set_gen_names`: apply the single-name
setter to entry 0 of the name array. -/
def _gr_gr_poly_ctx_set_gen_names (P : PolyRingCtx R) (s : List String) :
    Status × PolyRingCtx R :=
  _gr_gr_poly_ctx_set_gen_name P (s.getD 0 "")

/-- Source `polynomial_set_other`: the ordered cross-ring coercion
chain, translated branch by branch (pointer comparisons become
comparisons of the modelled pointer identities). -/
def polynomial_set_other (P : PolyRingCtx R) (x : OtherArg R) : Status × List R :=
  if x.ctxPtr = P.ptr then
    (Status.success, x.polyVal)
  else if x.ctxPtr = P.elemPtr then
    gr_poly_set_scalar P.base x.scalarVal
  else if x.ring = WhichRing.grPoly ∧ x.var = P.var then
    P.prims.setGrPolyOther x.elemPtr x.raw
  else if x.ring = WhichRing.fmpzPoly then
    P.prims.setFmpzPoly x.intPolyVal
  else if x.ring = WhichRing.fmpqPoly then
    P.prims.setFmpqPoly x.ratPolyVal
  else if x.ring = WhichRing.grVec then
    P.prims.setGrPolyOther x.elemPtr x.raw
  else
    match P.prims.coerceScalar x with
    | (s, a) => if s = Status.success then (s, normalise P.base [a]) else (s, [])

/-- The names of the six coercion rules of spec section 4.6, plus the
fallback. -/
inductive CoercionRule where
  | sameCtx
  | baseScalar
  | polySameVar
  | intPoly
  | ratPoly
  | vec
  | fallback
deriving DecidableEq

/-- The ordered first-match-wins rule selection of spec section 4.6,
written from the numbered list of the spec. -/
def coercionRule (P : PolyRingCtx R) (x : OtherArg R) : CoercionRule :=
  if x.ctxPtr = P.ptr then CoercionRule.sameCtx
  else if x.ctxPtr = P.elemPtr then CoercionRule.baseScalar
  else if x.ring = WhichRing.grPoly ∧ x.var = P.var then CoercionRule.polySameVar
  else if x.ring = WhichRing.fmpzPoly then CoercionRule.intPoly
  else if x.ring = WhichRing.fmpqPoly then CoercionRule.ratPoly
  else if x.ring = WhichRing.grVec then CoercionRule.vec
  else CoercionRule.fallback

/-- The coercion behavior spec section 4.6 prescribes for each selected
rule: plain copy, constant wrap, recursive coefficient-wise coercion,
bulk conversions, vector-entry reinterpretation, and the scalar
fallback that yields a degree-0 polynomial on success, the zero
polynomial on failure, and propagates the scalar status either way. -/
def spec_set_other (P : PolyRingCtx R) (x : OtherArg R) : Status × List R :=
  match coercionRule P x with
  | CoercionRule.sameCtx => (Status.success, x.polyVal)
  | CoercionRule.baseScalar => gr_poly_set_scalar P.base x.scalarVal
  | CoercionRule.polySameVar => P.prims.setGrPolyOther x.elemPtr x.raw
  | CoercionRule.intPoly => P.prims.setFmpzPoly x.intPolyVal
  | CoercionRule.ratPoly => P.prims.setFmpqPoly x.ratPolyVal
  | CoercionRule.vec => P.prims.setGrPolyOther x.elemPtr x.raw
  | CoercionRule.fallback =>
    match P.prims.coerceScalar x with
    | (Status.success, a) => (Status.success, normalise P.base [a])
    | (s, _) => (s, [])

/-- The degree-ceiling guard of source `polynomial_mul`: with a ceiling
set, both operands nonzero and the sum of lengths above the ceiling,
multiplication is refused. -/
def mulGuard (P : PolyRingCtx R) (p1 p2 : List R) : Bool :=
  match P.degree_limit with
  | some k => decide (p1.length ≠ 0) && decide (p2.length ≠ 0)
      && decide (p1.length + p2.length > k)
  | none => false

/-- Source `polynomial_mul`: refuse with `GR_UNABLE` (leaving the
result untouched) when the degree-ceiling guard fires, otherwise
delegate to `gr_poly_mul` on the base ring. The `res` argument models
the in/out result buffer. -/
def polynomial_mul (P : PolyRingCtx R) (res p1 p2 : List R) : Status × List R :=
  if mulGuard P p1 p2 then (Status.unable, res)
  else gr_poly_mul P.base p1 p2

/-- Source `polynomial_mul_ui`: delegate to the base-ring scalar
multiplication primitive (which receives only the base-ring context)
at the base-ring image of the unsigned machine integer. -/
def polynomial_mul_ui (P : PolyRingCtx R) (p : List R) (c : Nat) : Status × List R :=
  gr_poly_mul_scalar P.base p (c : R)

/-- Source `polynomial_mul_si`: as `polynomial_mul_ui` for a signed
machine integer. -/
def polynomial_mul_si (P : PolyRingCtx R) (p : List R) (c : Int) : Status × List R :=
  gr_poly_mul_scalar P.base p (c : R)

/-- Source `polynomial_mul_fmpz`: as `polynomial_mul_ui` for a
big-integer scalar. -/
def polynomial_mul_fmpz (P : PolyRingCtx R) (p : List R) (c : Int) : Status × List R :=
  gr_poly_mul_scalar P.base p (c : R)

/-- Source `polynomial_add`: delegate to `gr_poly_add` on the base
ring. -/
def polynomial_add (P : PolyRingCtx R) (p1 p2 : List R) : Status × List R :=
  gr_poly_add P.base p1 p2

/-- Source `polynomial_sub`: delegate to `gr_poly_sub` on the base
ring. -/
def polynomial_sub (P : PolyRingCtx R) (p1 p2 : List R) : Status × List R :=
  gr_poly_sub P.base p1 p2

/-- Source `polynomial_add_ui`: delegate to the base-ring scalar
addition primitive at the base-ring image of the scalar. -/
def polynomial_add_ui (P : PolyRingCtx R) (p : List R) (c : Nat) : Status × List R :=
  gr_poly_add_scalar P.base p (c : R)

/-- Source `polynomial_add_si`: as `polynomial_add_ui` for a signed
machine integer. -/
def polynomial_add_si (P : PolyRingCtx R) (p : List R) (c : Int) : Status × List R :=
  gr_poly_add_scalar P.base p (c : R)

/-- Source `polynomial_add_fmpz`: as `polynomial_add_ui` for a
big-integer scalar. -/
def polynomial_add_fmpz (P : PolyRingCtx R) (p : List R) (c : Int) : Status × List R :=
  gr_poly_add_scalar P.base p (c : R)

/-- Source `polynomial_add_fmpq`: delegate to the base-ring rational
scalar addition primitive (which receives only the base-ring
context). -/
def polynomial_add_fmpq (P : PolyRingCtx R) (p : List R) (c : Rat) : Status × List R :=
  gr_poly_add_fmpq P.base p c

/-- Source `polynomial_sub_ui`: delegate to the base-ring scalar
subtraction primitive at the base-ring image of the scalar. -/
def polynomial_sub_ui (P : PolyRingCtx R) (p : List R) (c : Nat) : Status × List R :=
  gr_poly_sub_scalar P.base p (c : R)

/-- Source `polynomial_sub_si`: as `polynomial_sub_ui` for a signed
machine integer. -/
def polynomial_sub_si (P : PolyRingCtx R) (p : List R) (c : Int) : Status × List R :=
  gr_poly_sub_scalar P.base p (c : R)

/-- Source `polynomial_sub_fmpz`: as `polynomial_sub_ui` for a
big-integer scalar. -/
def polynomial_sub_fmpz (P : PolyRingCtx R) (p : List R) (c : Int) : Status × List R :=
  gr_poly_sub_scalar P.base p (c : R)

/-- Source `polynomial_sub_fmpq`: delegate to the base-ring rational
scalar subtraction primitive (which receives only the base-ring
context). -/
def polynomial_sub_fmpq (P : PolyRingCtx R) (p : List R) (c : Rat) : Status × List R :=
  gr_poly_sub_fmpq P.base p c

/-- Source `polynomial_mul_fmpq`: delegate to the base-ring rational
scalar multiplication primitive (which receives only the base-ring
context). -/
def polynomial_mul_fmpq (P : PolyRingCtx R) (p : List R) (c : Rat) : Status × List R :=
  gr_poly_mul_fmpq P.base p c

/-- Source `polynomial_set_fmpq`: build the polynomial of a rational
scalar through the base ring (`gr_poly_set_fmpq`). -/
def polynomial_set_fmpq (P : PolyRingCtx R) (c : Rat) : Status × List R :=
  gr_poly_set_fmpq P.base c

/-- Source `polynomial_mul_other`: scalar fast path when the foreign
context is the base-ring context; ordinary same-ring multiplication
when it is a polynomial ring over the same base ring with the same
generator name; otherwise coerce into a temporary polynomial and
multiply, returning the coercion status (result untouched) when the
coercion fails. -/
def polynomial_mul_other (P : PolyRingCtx R) (res p : List R) (x : OtherArg R) :
    Status × List R :=
  if x.ctxPtr = P.elemPtr then
    gr_poly_mul_scalar P.base p x.scalarVal
  else if x.ring = WhichRing.grPoly ∧ x.elemPtr = P.elemPtr ∧ x.var = P.var then
    polynomial_mul P res p x.polyVal
  else
    match polynomial_set_other P x with
    | (Status.success, t) => polynomial_mul P res p t
    | (s, _) => (s, res)

/-- Source `polynomial_other_mul`: mirror image of
`polynomial_mul_other` with the foreign operand on the left. -/
def polynomial_other_mul (P : PolyRingCtx R) (res : List R) (x : OtherArg R) (p : List R) :
    Status × List R :=
  if x.ctxPtr = P.elemPtr then
    gr_poly_scalar_mul P.base x.scalarVal p
  else if x.ring = WhichRing.grPoly ∧ x.elemPtr = P.elemPtr ∧ x.var = P.var then
    polynomial_mul P res x.polyVal p
  else
    match polynomial_set_other P x with
    | (Status.success, t) => polynomial_mul P res t p
    | (s, _) => (s, res)

/-- Source `polynomial_div`: for a length-1 divisor divide every
coefficient by the scalar `y[0]` (snapshotting the scalar first when
the result buffer is `y` itself, modelled by the `resIsY` flag; the
snapshot copy always succeeds so its status joins as `GR_SUCCESS`);
otherwise run long division and turn the zero test of the remainder
into the final status. -/
def polynomial_div (P : PolyRingCtx R) (resIsY : Bool) (x y : List R) : Status × List R :=
  if y.length = 1 then
    if resIsY then
      match gr_poly_div_scalar P.base x (y.getD 0 0) with
      | (s, res) => (Status.join Status.success s, res)
    else
      gr_poly_div_scalar P.base x (y.getD 0 0)
  else
    match gr_poly_divrem P.base x y with
    | (Status.success, (q, r)) => (statusOfTruth (polyIsZero P.base r), q)
    | (s, (q, _)) => (s, q)

/-- Source `polynomial_euclidean_div`: long division, keeping only the
quotient. -/
def polynomial_euclidean_div (P : PolyRingCtx R) (x y : List R) : Status × List R :=
  match gr_poly_divrem P.base x y with
  | (s, (q, _)) => (s, q)

/-- Source `polynomial_euclidean_rem`: long division, keeping only the
remainder. -/
def polynomial_euclidean_rem (P : PolyRingCtx R) (x y : List R) : Status × List R :=
  match gr_poly_divrem P.base x y with
  | (s, (_, r)) => (s, r)

/-- Source `polynomial_euclidean_divrem`: long division, returning both
halves. -/
def polynomial_euclidean_divrem (P : PolyRingCtx R) (x y : List R) :
    Status × (List R × List R) :=
  gr_poly_divrem P.base x y

/-- Source `fmpz_init_set_si`: a signed machine integer converted
exactly to an arbitrary-precision integer. -/
def fmpz_init_set_si (e : Int) : Int :=
  e

/-- Source `polynomial_pow_fmpz`: delegate to the generic
arbitrary-precision powering primitive. -/
def polynomial_pow_fmpz (P : PolyRingCtx R) (p : List R) (e : Int) : Status × List R :=
  P.prims.powFmpz p e

/-- Source `polynomial_pow_si`: convert the machine-integer exponent to
an arbitrary-precision integer, then delegate to the same powering
primitive as `polynomial_pow_fmpz`. -/
def polynomial_pow_si (P : PolyRingCtx R) (p : List R) (e : Int) : Status × List R :=
  P.prims.powFmpz p (fmpz_init_set_si e)

end SourceFunctions

/-- Concrete base-ring instance for witnesses: the integers, with the
decidable zero test and exact division (failing with a domain error
when the divisor does not divide the dividend or is zero). -/
def intBase : BaseModel Int where
  isZero a := if a = 0 then Truth.t else Truth.f
  sdiv a b := if b ≠ 0 ∧ a % b = 0 then (Status.success, a / b) else (Status.domain, 0)
  setFmpq c := if c.den = 1 then (Status.success, c.num) else (Status.domain, 0)
  is_ring := Truth.t
  is_commutative_ring := Truth.t
  is_integral_domain := Truth.t
  is_ufd := Truth.t
  is_rational_vector_space := Truth.f
  is_real_vector_space := Truth.f
  is_complex_vector_space := Truth.f
  is_threadsafe := Truth.t

/-- Trivial external collaborators for witnesses: every foreign
conversion and the powering primitive succeed with a zero result. -/
def trivPrims : CoercePrims Int where
  setGrPolyOther _ _ := (Status.success, [])
  setFmpzPoly _ := (Status.success, [])
  setFmpqPoly _ := (Status.success, [])
  coerceScalar _ := (Status.success, 0)
  powFmpz _ _ := (Status.success, [])

/-- External collaborators whose scalar coercion fails, for exercising
the failure path of the mixed multiplication fallback. -/
def failPrims : CoercePrims Int where
  setGrPolyOther _ _ := (Status.success, [])
  setFmpzPoly _ := (Status.success, [])
  setFmpqPoly _ := (Status.success, [])
  coerceScalar _ := (Status.domain, 0)
  powFmpz _ _ := (Status.success, [])

/-- Concrete polynomial-ring context over the integers with a chosen
degree ceiling, for witnesses: context pointer 1, base-ring pointer 0,
default generator name. -/
def intPolyCtxOf (lim : Option Nat) : PolyRingCtx Int where
  ptr := 1
  elemPtr := 0
  base := intBase
  var := "x"
  degree_limit := lim
  prims := trivPrims

/-- Concrete unbounded polynomial-ring context over the integers. -/
def intPolyCtx : PolyRingCtx Int :=
  intPolyCtxOf none

/-- Concrete polynomial-ring context over the integers with degree
ceiling 2. -/
def intPolyCtxLim2 : PolyRingCtx Int :=
  intPolyCtxOf (some 2)

/-- Concrete polynomial-ring context over the integers whose scalar
coercion collaborator fails. -/
def intPolyCtxFail : PolyRingCtx Int :=
  { intPolyCtxOf none with prims := failPrims }

/-- Concrete foreign operand living in the base-ring context itself
(context pointer 0): the scalar 3. -/
def argScalar : OtherArg Int where
  ctxPtr := 0
  elemPtr := 0
  ring := WhichRing.other 7
  var := ""
  polyVal := []
  scalarVal := 3
  intPolyVal := []
  ratPolyVal := []
  raw := 0

/-- Concrete foreign operand from an unrelated ring (context pointer 9,
opaque kind), reaching the scalar-coercion fallback. -/
def argForeign : OtherArg Int where
  ctxPtr := 9
  elemPtr := 9
  ring := WhichRing.other 7
  var := ""
  polyVal := []
  scalarVal := 0
  intPolyVal := []
  ratPolyVal := []
  raw := 0

/-- Concrete foreign operand that is a polynomial over the same base
ring with the same generator name but a different context pointer. -/
def argSamePoly : OtherArg Int where
  ctxPtr := 5
  elemPtr := 0
  ring := WhichRing.grPoly
  var := "x"
  polyVal := [0, 1]
  scalarVal := 0
  intPolyVal := []
  ratPolyVal := []
  raw := 0

section TruthStatusLemmas

theorem Truth.and_eq_t {a b : Truth} : Truth.and a b = Truth.t ↔ a = Truth.t ∧ b = Truth.t := by
  cases a <;> cases b <;> simp [Truth.and]

theorem Status.success_join (s : Status) : Status.join Status.success s = s := by
  cases s <;> rfl

end TruthStatusLemmas

section ListLemmas

variable {R : Type} [CommRing R]

theorem length_ladd (a b : List R) : (ladd a b).length = max a.length b.length := by
  induction a generalizing b with
  | nil =>
    induction b with
    | nil => simp [ladd]
    | cons y ys ih => simp [ladd, ih]
  | cons x xs ih =>
    cases b with
    | nil => simp [ladd]
    | cons y ys => simp [ladd, ih, Nat.succ_max_succ]

theorem length_lsub (a b : List R) : (lsub a b).length = max a.length b.length := by
  induction a generalizing b with
  | nil =>
    induction b with
    | nil => simp [lsub]
    | cons y ys ih => simp [lsub, ih]
  | cons x xs ih =>
    cases b with
    | nil => simp [lsub]
    | cons y ys => simp [lsub, ih, Nat.succ_max_succ]

theorem length_shift (n : Nat) (l : List R) : (shift n l).length = n + l.length := by
  simp [shift]

theorem length_scale (c : R) (l : List R) : (scale c l).length = l.length := by
  simp [scale]

theorem getD_lsub (a b : List R) (i : Nat) :
    (lsub a b).getD i 0 = a.getD i 0 - b.getD i 0 := by
  induction a generalizing b i with
  | nil =>
    induction b generalizing i with
    | nil => simp [lsub]
    | cons y ys ih =>
      cases i with
      | zero => simp [lsub]
      | succ j => simpa [lsub] using ih j
  | cons x xs ih =>
    cases b with
    | nil => simp [lsub]
    | cons y ys =>
      cases i with
      | zero => simp [lsub]
      | succ j => simpa [lsub] using ih ys j

theorem getD_shift (n : Nat) (l : List R) (i : Nat) :
    (shift n l).getD (n + i) 0 = l.getD i 0 := by
  induction n with
  | zero => simp [shift]
  | succ m ih =>
    have : shift (m + 1) l = 0 :: shift m l := by
      simp [shift, List.replicate_succ]
    rw [this]
    simpa [Nat.succ_add] using ih

theorem getD_scale (c : R) (l : List R) (i : Nat) :
    (scale c l).getD i 0 = c * l.getD i 0 := by
  induction l generalizing i with
  | nil => simp [scale]
  | cons x xs ih =>
    cases i with
    | zero => simp [scale]
    | succ j => simpa [scale] using ih j

theorem getD_singleton (a : R) (i : Nat) :
    ([a] : List R).getD i 0 = if i = 0 then a else 0 := by
  cases i <;> simp

theorem range_map_getD (l : List R) (g : R → R) :
    (List.range l.length).map (fun k => g (l.getD k 0)) = l.map g := by
  apply List.ext_getElem
  · simp
  · intro i h1 h2
    simp only [List.getElem_map, List.getElem_range]
    rw [List.getD_eq_getElem]

end ListLemmas

section ToPolyLemmas

variable {R : Type} [CommRing R]

theorem toPoly_nil : toPoly ([] : List R) = 0 := rfl

theorem toPoly_cons (a : R) (l : List R) :
    toPoly (a :: l) = Polynomial.C a + toPoly l * Polynomial.X := rfl

theorem toPoly_ladd (a b : List R) : toPoly (ladd a b) = toPoly a + toPoly b := by
  induction a generalizing b with
  | nil =>
    induction b with
    | nil => simp [ladd, toPoly_nil]
    | cons y ys ih => simp only [ladd, toPoly_cons, toPoly_nil, ih]; ring
  | cons x xs ih =>
    cases b with
    | nil => simp [ladd, toPoly_nil]
    | cons y ys =>
      simp only [ladd, toPoly_cons, ih, map_add]
      ring

theorem toPoly_lsub (a b : List R) : toPoly (lsub a b) = toPoly a - toPoly b := by
  induction a generalizing b with
  | nil =>
    induction b with
    | nil => simp [lsub, toPoly_nil]
    | cons y ys ih => simp only [lsub, toPoly_cons, toPoly_nil, ih, map_sub, map_zero]; ring
  | cons x xs ih =>
    cases b with
    | nil => simp [lsub, toPoly_nil]
    | cons y ys =>
      simp only [lsub, toPoly_cons, ih, map_sub]
      ring

theorem toPoly_shift (n : Nat) (l : List R) :
    toPoly (shift n l) = Polynomial.X ^ n * toPoly l := by
  induction n with
  | zero => simp [shift]
  | succ m ih =>
    have h : shift (m + 1) l = 0 :: shift m l := by
      simp [shift, List.replicate_succ]
    rw [h, toPoly_cons, ih]
    simp only [map_zero]
    ring

theorem toPoly_scale (c : R) (l : List R) :
    toPoly (scale c l) = Polynomial.C c * toPoly l := by
  induction l with
  | nil => simp [scale, toPoly_nil]
  | cons x xs ih =>
    simp only [scale, List.map_cons, toPoly_cons, map_mul]
    rw [show (List.map (fun a => c * a) xs) = scale c xs from rfl, ih]
    ring

theorem toPoly_take (l : List R) (k : Nat) (h : l.length = k + 1) :
    toPoly l = toPoly (l.take k) + Polynomial.C (l.getD k 0) * Polynomial.X ^ k := by
  induction l generalizing k with
  | nil => simp at h
  | cons a t ih =>
    cases k with
    | zero =>
      have ht : t = [] := by
        cases t with
        | nil => rfl
        | cons b bs => simp at h
      subst ht
      simp [toPoly_cons, toPoly_nil]
    | succ m =>
      have hm : t.length = m + 1 := by simpa using h
      rw [toPoly_cons, ih m hm]
      simp only [List.take_succ_cons, toPoly_cons, List.getD_cons_succ]
      ring

theorem toPoly_append_singleton (l : List R) (c : R) :
    toPoly (l ++ [c]) = toPoly l + Polynomial.C c * Polynomial.X ^ l.length := by
  induction l with
  | nil => simp [toPoly_cons, toPoly_nil]
  | cons a t ih =>
    simp only [List.cons_append, toPoly_cons, ih, List.length_cons]
    ring

end ToPolyLemmas

section NormaliseLemmas

variable {R : Type}

theorem normalise_eq_nil {B : BaseModel R} :
    ∀ l : List R, normalise B l = [] → ∀ a ∈ l, B.isZero a = Truth.t := by
  intro l
  induction l with
  | nil => intro _ a ha; cases ha
  | cons x xs ih =>
    intro h a ha
    have hxs : normalise B xs = [] := by
      rw [normalise] at h
      cases hn : normalise B xs with
      | nil => rfl
      | cons b bs => rw [hn] at h; cases h
    have hx : B.isZero x = Truth.t := by
      rw [normalise, hxs] at h
      by_cases hx : B.isZero x = Truth.t
      · exact hx
      · rw [if_neg hx] at h; cases h
    rcases List.mem_cons.mp ha with rfl | ha2
    · exact hx
    · exact ih hxs a ha2

theorem normalise_of_all_t {B : BaseModel R} :
    ∀ l : List R, (∀ a ∈ l, B.isZero a = Truth.t) → normalise B l = [] := by
  intro l
  induction l with
  | nil => intro _; rfl
  | cons x xs ih =>
    intro h
    rw [normalise, ih fun a ha => h a (List.mem_cons_of_mem x ha)]
    rw [if_pos (h x (List.mem_cons_self x xs))]

theorem polyIsZero_eq_t {B : BaseModel R} {l : List R} :
    polyIsZero B l = Truth.t ↔ ∀ a ∈ l, B.isZero a = Truth.t := by
  induction l with
  | nil => simp [polyIsZero]
  | cons x xs ih =>
    simp only [polyIsZero, List.foldr_cons, Truth.and_eq_t, List.mem_cons]
    constructor
    · rintro ⟨hx, hxs⟩ a (rfl | ha)
      · exact hx
      · exact ih.mp hxs a ha
    · intro h
      exact ⟨h x (Or.inl rfl), ih.mpr fun a ha => h a (Or.inr ha)⟩

variable [CommRing R]

theorem toPoly_eq_zero_of_all_t {B : BaseModel R}
    (hzt : ∀ a, B.isZero a = Truth.t → a = 0) :
    ∀ l : List R, (∀ a ∈ l, B.isZero a = Truth.t) → toPoly l = 0 := by
  intro l
  induction l with
  | nil => intro _; rfl
  | cons x xs ih =>
    intro h
    rw [toPoly_cons, ih fun a ha => h a (List.mem_cons_of_mem x ha)]
    rw [hzt x (h x (List.mem_cons_self x xs))]
    simp

theorem toPoly_normalise {B : BaseModel R}
    (hzt : ∀ a, B.isZero a = Truth.t → a = 0) :
    ∀ l : List R, toPoly (normalise B l) = toPoly l := by
  intro l
  induction l with
  | nil => rfl
  | cons x xs ih =>
    rw [normalise]
    cases hxs : normalise B xs with
    | nil =>
      have hx0 : toPoly xs = 0 :=
        toPoly_eq_zero_of_all_t hzt xs (normalise_eq_nil xs hxs)
      by_cases hx : B.isZero x = Truth.t
      · rw [if_pos hx, toPoly_cons, hx0, hzt x hx]
        simp [toPoly_nil]
      · rw [if_neg hx, toPoly_cons, toPoly_cons, hx0, toPoly_nil]
    | cons b bs =>
      rw [toPoly_cons, ← hxs, ih, toPoly_cons]

end NormaliseLemmas

section IntBaseLemmas

theorem intBase_isZero_t : ∀ a : Int, intBase.isZero a = Truth.t → a = 0 := by
  intro a h
  by_cases ha : a = 0
  · exact ha
  · simp [intBase, ha] at h

theorem intBase_isZero_zero : intBase.isZero 0 = Truth.t := by
  simp [intBase]

theorem intBase_sdiv_sound :
    ∀ a b : Int, ∀ s : Status, ∀ c : Int,
      intBase.sdiv a b = (s, c) → s = Status.success → c * b = a := by
  intro a b s c h hs
  by_cases hb : b ≠ 0 ∧ a % b = 0
  · simp only [intBase, if_pos hb] at h
    have hc : c = a / b := by
      have := congrArg Prod.snd h
      simpa using this.symm
    subst hc
    have hdvd : b ∣ a := Int.dvd_of_emod_eq_zero hb.2
    rw [Int.ediv_mul_cancel hdvd]
  · simp only [intBase, if_neg hb] at h
    have := congrArg Prod.fst h
    simp at this
    rw [← this] at hs
    cases hs

end IntBaseLemmas

section DivremLemmas

variable {R : Type} [CommRing R]

theorem divremAux_correct (B : BaseModel R)
    (hsd : ∀ a b : R, ∀ s : Status, ∀ c : R,
      B.sdiv a b = (s, c) → s = Status.success → c * b = a)
    (y : List R) (hy : y.length ≠ 0) :
    ∀ n : Nat, ∀ r q rr : List R, r.length + 1 = y.length + n →
      divremAux B y n r = (Status.success, (q, rr)) →
      toPoly r = toPoly q * toPoly y + toPoly rr
        ∧ q.length = n ∧ rr.length + 1 = y.length := by
  intro n
  induction n with
  | zero =>
    intro r q rr hlen h
    rw [divremAux] at h
    injection h with h1 h2
    injection h2 with hq hr
    subst hq
    subst hr
    refine ⟨?_, rfl, ?_⟩
    · rw [toPoly_nil]
      ring
    · omega
  | succ n ih =>
    intro r q rr hlen h
    rw [divremAux] at h
    rcases hsdE : B.sdiv (r.getD (r.length - 1) 0) (y.getD (y.length - 1) 0) with ⟨s0, c⟩
    rw [hsdE] at h
    cases s0 with
    | success =>
      dsimp only at h
      rcases hrec : divremAux B y n
          ((lsub r (shift n (scale c y))).take (y.length + n - 1)) with ⟨s1, q1, rr1⟩
      rw [hrec] at h
      dsimp only at h
      injection h with h1 h2
      injection h2 with hq hr
      subst h1
      subst hq
      subst hr
      have hrlen : r.length = y.length + n := by omega
      have hLlen : (lsub r (shift n (scale c y))).length = y.length + n := by
        rw [length_lsub, length_shift, length_scale, hrlen]
        omega
      have hTlen : ((lsub r (shift n (scale c y))).take (y.length + n - 1)).length + 1
          = y.length + n := by
        rw [List.length_take, hLlen]
        omega
      obtain ⟨ih1, ih2, ih3⟩ := ih _ q1 rr1 hTlen hrec
      have hlead : c * y.getD (y.length - 1) 0 = r.getD (r.length - 1) 0 :=
        hsd _ _ _ _ hsdE rfl
      have hgd : (lsub r (shift n (scale c y))).getD (y.length + n - 1) 0 = 0 := by
        rw [getD_lsub]
        have hk : y.length + n - 1 = n + (y.length - 1) := by omega
        rw [hk, getD_shift, getD_scale]
        have hk2 : n + (y.length - 1) = r.length - 1 := by omega
        rw [hk2, hlead]
        ring
      have hkey : toPoly ((lsub r (shift n (scale c y))).take (y.length + n - 1))
          = toPoly r - Polynomial.X ^ n * (Polynomial.C c * toPoly y) := by
        have htp := toPoly_take (lsub r (shift n (scale c y))) (y.length + n - 1)
          (by omega)
        rw [hgd] at htp
        simp only [map_zero, zero_mul, add_zero] at htp
        rw [← htp, toPoly_lsub, toPoly_shift, toPoly_scale]
      rw [hkey] at ih1
      refine ⟨?_, ?_, ih3⟩
      · rw [toPoly_append_singleton, ih2]
        linear_combination ih1
      · simp [ih2]
    | domain =>
      dsimp only at h
      injection h with h1 h2
      cases h1
    | unable =>
      dsimp only at h
      injection h with h1 h2
      cases h1
    | domainUnable =>
      dsimp only at h
      injection h with h1 h2
      cases h1

theorem gr_poly_divrem_correct (B : BaseModel R)
    (hsd : ∀ a b : R, ∀ s : Status, ∀ c : R,
      B.sdiv a b = (s, c) → s = Status.success → c * b = a)
    (hzt : ∀ a, B.isZero a = Truth.t → a = 0)
    (x y q r : List R)
    (h : gr_poly_divrem B x y = (Status.success, (q, r))) :
    toPoly x = toPoly q * toPoly y + toPoly r := by
  rw [gr_poly_divrem] at h
  by_cases h0 : y.length = 0
  · rw [if_pos h0] at h
    injection h with h1 h2
    cases h1
  · rw [if_neg h0] at h
    by_cases h1 : x.length < y.length
    · rw [if_pos h1] at h
      injection h with hs h2
      injection h2 with hq hr
      subst hq
      subst hr
      rw [toPoly_nil]
      ring
    · rw [if_neg h1] at h
      rcases hda : divremAux B y (x.length - y.length + 1) x with ⟨s1, q1, rr1⟩
      rw [hda] at h
      dsimp only at h
      injection h with hs h2
      injection h2 with hq hr
      subst hs
      have hlen : x.length + 1 = y.length + (x.length - y.length + 1) := by omega
      obtain ⟨hmain, _, _⟩ := divremAux_correct B hsd y h0 _ x q1 rr1 hlen hda
      rw [hmain, ← hq, ← hr, toPoly_normalise hzt, toPoly_normalise hzt]

end DivremLemmas

section ClaimDivision

variable {R : Type} [CommRing R]

/-- C1: with a divisor that is not a length-1 scalar, `polynomial_div`
computes quotient and remainder by long division over the base ring
and classifies the outcome by the zero test of the remainder — Success
when it is provably zero, Domain-error when provably nonzero, Unable
when undecidable — propagating a failing long-division status
unchanged; whenever it returns Success, the returned quotient
multiplies back exactly to the dividend. With a length-1 divisor it
instead divides every coefficient of `x` by the scalar `y[0]`, with the
same outcome whether or not the result buffer aliases `y` (the alias
path snapshots the scalar first). -/
theorem polynomial_div_correct (P : PolyRingCtx R) (x y : List R)
    (hsd : ∀ a b : R, ∀ s : Status, ∀ c : R,
      P.base.sdiv a b = (s, c) → s = Status.success → c * b = a)
    (hzt : ∀ a, P.base.isZero a = Truth.t → a = 0) :
    (y.length = 1 → ∀ b : Bool,
      polynomial_div P b x y = gr_poly_div_scalar P.base x (y.getD 0 0))
    ∧ (y.length ≠ 1 →
      (∀ q r : List R, gr_poly_divrem P.base x y = (Status.success, (q, r)) →
        polynomial_div P false x y = (statusOfTruth (polyIsZero P.base r), q))
      ∧ (∀ s : Status, ∀ p : List R × List R,
          gr_poly_divrem P.base x y = (s, p) → s ≠ Status.success →
        polynomial_div P false x y = (s, p.1))
      ∧ (∀ res : List R, polynomial_div P false x y = (Status.success, res) →
        toPoly res * toPoly y = toPoly x)) := by
  constructor
  · intro hy1 b
    rw [polynomial_div, if_pos hy1]
    cases b with
    | false => rfl
    | true =>
      rcases hds : gr_poly_div_scalar P.base x (y.getD 0 0) with ⟨s, res⟩
      simp [Status.success_join]
  · intro hy1
    refine ⟨?_, ?_, ?_⟩
    · intro q r hqr
      rw [polynomial_div, if_neg hy1, hqr]
    · intro s p hp hne
      rw [polynomial_div, if_neg hy1, hp]
      rcases p with ⟨q, r⟩
      cases s with
      | success => exact absurd rfl hne
      | domain => rfl
      | unable => rfl
      | domainUnable => rfl
    · intro res h
      rw [polynomial_div, if_neg hy1] at h
      rcases hdr : gr_poly_divrem P.base x y with ⟨s, q1, r1⟩
      rw [hdr] at h
      cases s with
      | success =>
        dsimp only at h
        injection h with hst hq
        subst hq
        cases hpz : polyIsZero P.base r1 with
        | t =>
          have hr0 : toPoly r1 = 0 :=
            toPoly_eq_zero_of_all_t hzt r1 (polyIsZero_eq_t.mp hpz)
          have hx := gr_poly_divrem_correct P.base hsd hzt x y q1 r1 hdr
          rw [hx, hr0]
          ring
        | f => rw [hpz] at hst; cases hst
        | u => rw [hpz] at hst; cases hst
      | domain => dsimp only at h; injection h with hst _; cases hst
      | unable => dsimp only at h; injection h with hst _; cases hst
      | domainUnable => dsimp only at h; injection h with hst _; cases hst

/-- C8: the Euclidean division entry points are thin wrappers around
the single long-division primitive `gr_poly_divrem`:
`polynomial_euclidean_div` returns its status and quotient,
`polynomial_euclidean_rem` its status and remainder, and
`polynomial_euclidean_divrem` is the primitive itself. -/
theorem polynomial_euclidean_wrappers (P : PolyRingCtx R) (x y : List R) :
    polynomial_euclidean_div P x y
      = ((gr_poly_divrem P.base x y).1, (gr_poly_divrem P.base x y).2.1)
    ∧ polynomial_euclidean_rem P x y
      = ((gr_poly_divrem P.base x y).1, (gr_poly_divrem P.base x y).2.2)
    ∧ polynomial_euclidean_divrem P x y = gr_poly_divrem P.base x y := by
  rcases hdr : gr_poly_divrem P.base x y with ⟨s, q, r⟩
  refine ⟨?_, ?_, hdr⟩
  · rw [polynomial_euclidean_div, hdr]
  · rw [polynomial_euclidean_rem, hdr]

end ClaimDivision

section ClaimPow

variable {R : Type}

/-- C7: powering by a signed machine-integer exponent first converts
the exponent exactly to an arbitrary-precision integer and then
dispatches to the same primitive as `polynomial_pow_fmpz`, so the two
entry points agree on every input. -/
theorem polynomial_pow_si_eq_pow_fmpz (P : PolyRingCtx R) (p : List R) (e : Int) :
    polynomial_pow_si P p e = polynomial_pow_fmpz P p e
    ∧ fmpz_init_set_si e = e :=
  ⟨rfl, rfl⟩

end ClaimPow

section ClaimMulCeiling

variable {R : Type} [CommRing R]

/-- C2: with a degree ceiling `k` set, both operands nonzero and
`len(p1) + len(p2) > k`, `polynomial_mul` returns Unable immediately,
leaving the result (and, the embedding being pure, the operands)
untouched; with no ceiling set, a zero operand, or the sum of lengths
within the ceiling, it delegates to the base multiplication
unchanged. -/
theorem polynomial_mul_ceiling (P : PolyRingCtx R) (res p1 p2 : List R) :
    (∀ k : Nat, P.degree_limit = some k → p1.length ≠ 0 → p2.length ≠ 0 →
      p1.length + p2.length > k →
      polynomial_mul P res p1 p2 = (Status.unable, res))
    ∧ (P.degree_limit = none →
      polynomial_mul P res p1 p2 = gr_poly_mul P.base p1 p2)
    ∧ (p1.length = 0 ∨ p2.length = 0 →
      polynomial_mul P res p1 p2 = gr_poly_mul P.base p1 p2)
    ∧ (∀ k : Nat, P.degree_limit = some k → p1.length + p2.length ≤ k →
      polynomial_mul P res p1 p2 = gr_poly_mul P.base p1 p2) := by
  refine ⟨?_, ?_, ?_, ?_⟩
  · intro k hk h1 h2 h3
    have hg : mulGuard P p1 p2 = true := by
      simp only [mulGuard, hk, Bool.and_eq_true, decide_eq_true_eq]
      omega
    rw [polynomial_mul, if_pos hg]
  · intro hk
    have hg : mulGuard P p1 p2 = false := by
      simp [mulGuard, hk]
    rw [polynomial_mul, hg]
    rfl
  · intro h
    have hg : mulGuard P p1 p2 = false := by
      rcases hdl : P.degree_limit with _ | k
      · simp [mulGuard, hdl]
      · rcases h with h | h <;> simp [mulGuard, hdl, h]
    rw [polynomial_mul, hg]
    rfl
  · intro k hk h3
    have hh : ¬ (p1.length + p2.length > k) := by omega
    have hg : mulGuard P p1 p2 = false := by
      simp [mulGuard, hk, hh]
    rw [polynomial_mul, hg]
    rfl

end ClaimMulCeiling

section ClaimPredicates

variable {R : Type}

/-- C6: each structural predicate of the polynomial-ring context is
forwarded verbatim to the base ring, while the is-field entry of the
method table is the generic always-false predicate, whatever the base
ring. -/
theorem polynomial_ctx_predicates (P : PolyRingCtx R) :
    polynomial_ctx_is_ring P = P.base.is_ring
    ∧ polynomial_ctx_is_commutative_ring P = P.base.is_commutative_ring
    ∧ polynomial_ctx_is_integral_domain P = P.base.is_integral_domain
    ∧ polynomial_ctx_is_unique_factorization_domain P = P.base.is_ufd
    ∧ polynomial_ctx_is_rational_vector_space P = P.base.is_rational_vector_space
    ∧ polynomial_ctx_is_real_vector_space P = P.base.is_real_vector_space
    ∧ polynomial_ctx_is_complex_vector_space P = P.base.is_complex_vector_space
    ∧ polynomial_ctx_is_threadsafe P = P.base.is_threadsafe
    ∧ polynomial_ctx_is_field P = Truth.f :=
  ⟨rfl, rfl, rfl, rfl, rfl, rfl, rfl, rfl, rfl⟩

/-- C10: the multi-name generator setter applies exactly the first
entry of a non-empty name array — it equals the single-name setter on
entry 0 and is insensitive to everything after the head. -/
theorem set_gen_names_first_only (P : PolyRingCtx R) (s0 : String)
    (rest rest2 : List String) :
    _gr_gr_poly_ctx_set_gen_names P (s0 :: rest) = _gr_gr_poly_ctx_set_gen_name P s0
    ∧ _gr_gr_poly_ctx_set_gen_names P (s0 :: rest)
      = _gr_gr_poly_ctx_set_gen_names P (s0 :: rest2) :=
  ⟨rfl, rfl⟩

end ClaimPredicates

section ClaimSetOther

variable {R : Type}

/-- C3: `polynomial_set_other` realizes exactly the ordered,
first-match-wins coercion chain of the spec (same context, base-ring
scalar, polynomial with same generator name, big-integer polynomial,
big-rational polynomial, generic vector, scalar fallback), and in the
fallback the scalar coercion status is propagated unchanged, the value
being wrapped as a normalized degree-0 polynomial on success and set to
the zero polynomial on failure. -/
theorem polynomial_set_other_chain (P : PolyRingCtx R) (x : OtherArg R) :
    polynomial_set_other P x = spec_set_other P x
    ∧ (coercionRule P x = CoercionRule.fallback →
      ∀ s : Status, ∀ a : R, P.prims.coerceScalar x = (s, a) →
        polynomial_set_other P x
          = (s, if s = Status.success then normalise P.base [a] else [])) := by
  have hmain : polynomial_set_other P x = spec_set_other P x := by
    rw [polynomial_set_other, spec_set_other, coercionRule]
    split_ifs <;> try rfl
    rcases hcs : P.prims.coerceScalar x with ⟨s, a⟩
    cases s <;> simp
  refine ⟨hmain, ?_⟩
  intro hrule s a hcs
  rw [hmain, spec_set_other, hrule, hcs]
  cases s <;> simp

end ClaimSetOther

section ClaimMixedMul

variable {R : Type} [CommRing R]

/-- C4: mixed multiplication with a foreign operand: coefficient-wise
scalar multiplication when the foreign context is the base-ring
context; ordinary same-ring `polynomial_mul` when it is a polynomial
ring over the same base ring with the same generator name; otherwise
the operand is coerced through `polynomial_set_other` into a temporary
and multiplied, and a failing coercion status is returned with the
result untouched. Both orientations (`mul_other` and `other_mul`)
behave this way. -/
theorem polynomial_mixed_mul (P : PolyRingCtx R) (res p : List R) (x : OtherArg R) :
    (x.ctxPtr = P.elemPtr →
      polynomial_mul_other P res p x = gr_poly_mul_scalar P.base p x.scalarVal
      ∧ polynomial_other_mul P res x p = gr_poly_scalar_mul P.base x.scalarVal p)
    ∧ (x.ctxPtr ≠ P.elemPtr →
        x.ring = WhichRing.grPoly → x.elemPtr = P.elemPtr → x.var = P.var →
      polynomial_mul_other P res p x = polynomial_mul P res p x.polyVal
      ∧ polynomial_other_mul P res x p = polynomial_mul P res x.polyVal p)
    ∧ (x.ctxPtr ≠ P.elemPtr →
        ¬(x.ring = WhichRing.grPoly ∧ x.elemPtr = P.elemPtr ∧ x.var = P.var) →
      ∀ s : Status, ∀ t : List R, polynomial_set_other P x = (s, t) →
        (s = Status.success →
          polynomial_mul_other P res p x = polynomial_mul P res p t
          ∧ polynomial_other_mul P res x p = polynomial_mul P res t p)
        ∧ (s ≠ Status.success →
          polynomial_mul_other P res p x = (s, res)
          ∧ polynomial_other_mul P res x p = (s, res))) := by
  refine ⟨?_, ?_, ?_⟩
  · intro h
    rw [polynomial_mul_other, if_pos h, polynomial_other_mul, if_pos h]
    exact ⟨rfl, rfl⟩
  · intro h1 h2 h3 h4
    constructor
    · rw [polynomial_mul_other, if_neg h1, if_pos ⟨h2, h3, h4⟩]
    · rw [polynomial_other_mul, if_neg h1, if_pos ⟨h2, h3, h4⟩]
  · intro h1 h2 s t hst
    constructor
    · intro hs
      subst hs
      constructor
      · rw [polynomial_mul_other, if_neg h1, if_neg h2, hst]
      · rw [polynomial_other_mul, if_neg h1, if_neg h2, hst]
    · intro hs
      cases s with
      | success => exact absurd rfl hs
      | domain =>
        constructor
        · rw [polynomial_mul_other, if_neg h1, if_neg h2, hst]
        · rw [polynomial_other_mul, if_neg h1, if_neg h2, hst]
      | unable =>
        constructor
        · rw [polynomial_mul_other, if_neg h1, if_neg h2, hst]
        · rw [polynomial_other_mul, if_neg h1, if_neg h2, hst]
      | domainUnable =>
        constructor
        · rw [polynomial_mul_other, if_neg h1, if_neg h2, hst]
        · rw [polynomial_other_mul, if_neg h1, if_neg h2, hst]

end ClaimMixedMul

section ScalarVariantLemmas

variable {R : Type}

theorem constPoly_eq (B : BaseModel R) (a : R) :
    constPoly B a = if B.isZero a = Truth.t then [] else [a] := rfl

variable [CommRing R]

theorem gr_poly_mul_singleton (B : BaseModel R) (p : List R) (a : R) :
    gr_poly_mul B p [a] = (Status.success, normalise B (p.map fun b => b * a)) := by
  rw [gr_poly_mul]
  by_cases hp : p.length = 0
  · have hnil : p = [] := List.length_eq_zero.mp hp
    subst hnil
    simp [normalise]
  · rw [if_neg (by simp [hp])]
    have hlen : p.length + [a].length - 1 = p.length := by simp
    have hconv : ∀ k ∈ List.range p.length, convCoeff p [a] k = p.getD k 0 * a := by
      intro k _
      rw [convCoeff]
      rw [Finset.sum_eq_single_of_mem k (Finset.mem_range.mpr (by omega))]
      · rw [Nat.sub_self, getD_singleton, if_pos rfl]
      · intro b hb hbk
        have hb2 : b < k + 1 := Finset.mem_range.mp hb
        rw [getD_singleton, if_neg (by omega), mul_zero]
    rw [hlen, List.map_congr_left hconv, range_map_getD p fun b => b * a]

theorem gr_poly_add_scalar_eq_constPoly (B : BaseModel R)
    (hzt : ∀ b : R, B.isZero b = Truth.t → b = 0)
    (hz0 : B.isZero 0 = Truth.t) (p : List R) (a : R) :
    gr_poly_add_scalar B p a = gr_poly_add B p (constPoly B a) := by
  by_cases hza : B.isZero a = Truth.t
  · have ha0 : a = 0 := hzt a hza
    subst ha0
    rw [constPoly_eq, if_pos hza, gr_poly_add_scalar, gr_poly_add]
    cases p with
    | nil => simp [ladd, normalise, hz0]
    | cons x xs => simp [ladd]
  · rw [constPoly_eq, if_neg hza]
    rfl

theorem gr_poly_sub_scalar_eq_constPoly (B : BaseModel R)
    (hzt : ∀ b : R, B.isZero b = Truth.t → b = 0)
    (hz0 : B.isZero 0 = Truth.t) (p : List R) (a : R) :
    gr_poly_sub_scalar B p a = gr_poly_sub B p (constPoly B a) := by
  by_cases hza : B.isZero a = Truth.t
  · have ha0 : a = 0 := hzt a hza
    subst ha0
    rw [constPoly_eq, if_pos hza, gr_poly_sub_scalar, gr_poly_sub]
    cases p with
    | nil => simp [lsub, normalise, hz0]
    | cons x xs => simp [lsub]
  · rw [constPoly_eq, if_neg hza]
    rfl

theorem gr_poly_mul_scalar_eq_constPoly (B : BaseModel R)
    (hzt : ∀ b : R, B.isZero b = Truth.t → b = 0)
    (hz0 : B.isZero 0 = Truth.t) (p : List R) (a : R) :
    gr_poly_mul_scalar B p a = gr_poly_mul B p (constPoly B a) := by
  by_cases hza : B.isZero a = Truth.t
  · have ha0 : a = 0 := hzt a hza
    subst ha0
    rw [constPoly_eq, if_pos hza, gr_poly_mul_scalar]
    have hall : ∀ b ∈ p.map (fun x => x * (0 : R)), B.isZero b = Truth.t := by
      intro b hb
      rcases List.mem_map.mp hb with ⟨x, _, rfl⟩
      rw [mul_zero]
      exact hz0
    rw [normalise_of_all_t _ hall, gr_poly_mul]
    simp
  · rw [constPoly_eq, if_neg hza, gr_poly_mul_singleton, gr_poly_mul_scalar]

end ScalarVariantLemmas

section ClaimScalarVariants

variable {R : Type} [CommRing R]

/-- C5 counterexample: with a degree ceiling set (here 2) and a
nonzero polynomial of length 2, multiplying by the machine integer 2
through `polynomial_mul_ui` succeeds coefficient-wise (the primitive
receives only the base-ring context and never sees the ceiling), while
the polynomial-polynomial product against the degree-0 polynomial of 2
trips the ceiling guard and returns Unable — so the claimed equivalence
fails in ceiling contexts. -/
theorem scalar_variant_ceiling_counterexample :
    polynomial_mul_ui intPolyCtxLim2 [1, 1] 2
      ≠ polynomial_mul intPolyCtxLim2 [] [1, 1] (constPoly intBase ((2 : Nat) : Int)) := by
  decide

/-- C5 (amended): the scalar arithmetic variants — mul_ui, mul_si,
mul_fmpz, mul_fmpq, and the add/sub analogues — agree with first
converting the scalar to a degree-0 polynomial and applying the
corresponding polynomial-polynomial operation: for addition and
subtraction unconditionally; for a rational scalar each route goes
through the same base-ring conversion, whose image (on success) and
status (propagated identically on failure, when the base ring cannot
represent the rational) coincide on both sides; and for multiplication
whenever the degree ceiling guard does not fire on the pair (in
particular whenever no ceiling is set). When the ceiling guard fires,
the multiplication variants differ, as the counterexample shows.
Stated for an arbitrary base-ring image `a` of the scalar and
instantiated for every variant. -/
theorem scalar_variants_as_degree0 (P : PolyRingCtx R) (p : List R) (a : R)
    (hzt : ∀ b : R, P.base.isZero b = Truth.t → b = 0)
    (hz0 : P.base.isZero 0 = Truth.t) :
    gr_poly_add_scalar P.base p a = polynomial_add P p (constPoly P.base a)
    ∧ gr_poly_sub_scalar P.base p a = polynomial_sub P p (constPoly P.base a)
    ∧ (∀ res : List R, mulGuard P p (constPoly P.base a) = false →
        gr_poly_mul_scalar P.base p a = polynomial_mul P res p (constPoly P.base a))
    ∧ (∀ c : Nat,
        polynomial_add_ui P p c = polynomial_add P p (constPoly P.base ((c : R)))
        ∧ polynomial_sub_ui P p c = polynomial_sub P p (constPoly P.base ((c : R)))
        ∧ ∀ res : List R, mulGuard P p (constPoly P.base ((c : R))) = false →
          polynomial_mul_ui P p c = polynomial_mul P res p (constPoly P.base ((c : R))))
    ∧ (∀ c : Int,
        polynomial_add_si P p c = polynomial_add P p (constPoly P.base ((c : R)))
        ∧ polynomial_add_fmpz P p c = polynomial_add P p (constPoly P.base ((c : R)))
        ∧ polynomial_sub_si P p c = polynomial_sub P p (constPoly P.base ((c : R)))
        ∧ polynomial_sub_fmpz P p c = polynomial_sub P p (constPoly P.base ((c : R)))
        ∧ ∀ res : List R, mulGuard P p (constPoly P.base ((c : R))) = false →
          polynomial_mul_si P p c = polynomial_mul P res p (constPoly P.base ((c : R)))
          ∧ polynomial_mul_fmpz P p c
            = polynomial_mul P res p (constPoly P.base ((c : R))))
    ∧ (∀ c : Rat, ∀ s : Status, ∀ a2 : R, P.base.setFmpq c = (s, a2) →
        (s = Status.success →
          polynomial_set_fmpq P c = (Status.success, constPoly P.base a2)
          ∧ polynomial_add_fmpq P p c = polynomial_add P p (constPoly P.base a2)
          ∧ polynomial_sub_fmpq P p c = polynomial_sub P p (constPoly P.base a2)
          ∧ ∀ res : List R, mulGuard P p (constPoly P.base a2) = false →
            polynomial_mul_fmpq P p c = polynomial_mul P res p (constPoly P.base a2))
        ∧ (s ≠ Status.success →
          polynomial_set_fmpq P c = (s, [])
          ∧ polynomial_add_fmpq P p c = (s, [])
          ∧ polynomial_sub_fmpq P p c = (s, [])
          ∧ polynomial_mul_fmpq P p c = (s, []))) := by
  have hmul : ∀ b : R, ∀ res : List R, mulGuard P p (constPoly P.base b) = false →
      gr_poly_mul_scalar P.base p b = polynomial_mul P res p (constPoly P.base b) := by
    intro b res hg
    rw [polynomial_mul, hg]
    exact (gr_poly_mul_scalar_eq_constPoly P.base hzt hz0 p b).trans (by rfl)
  refine ⟨?_, ?_, ?_, ?_, ?_, ?_⟩
  · exact gr_poly_add_scalar_eq_constPoly P.base hzt hz0 p a
  · exact gr_poly_sub_scalar_eq_constPoly P.base hzt hz0 p a
  · exact hmul a
  · intro c
    exact ⟨gr_poly_add_scalar_eq_constPoly P.base hzt hz0 p (c : R),
      gr_poly_sub_scalar_eq_constPoly P.base hzt hz0 p (c : R),
      hmul (c : R)⟩
  · intro c
    exact ⟨gr_poly_add_scalar_eq_constPoly P.base hzt hz0 p (c : R),
      gr_poly_add_scalar_eq_constPoly P.base hzt hz0 p (c : R),
      gr_poly_sub_scalar_eq_constPoly P.base hzt hz0 p (c : R),
      gr_poly_sub_scalar_eq_constPoly P.base hzt hz0 p (c : R),
      fun res hg => ⟨hmul (c : R) res hg, hmul (c : R) res hg⟩⟩
  · intro c s a2 hsf
    constructor
    · intro hs
      subst hs
      refine ⟨?_, ?_, ?_, ?_⟩
      · rw [polynomial_set_fmpq, gr_poly_set_fmpq, hsf]
        rfl
      · rw [polynomial_add_fmpq, gr_poly_add_fmpq, hsf]
        exact gr_poly_add_scalar_eq_constPoly P.base hzt hz0 p a2
      · rw [polynomial_sub_fmpq, gr_poly_sub_fmpq, hsf]
        exact gr_poly_sub_scalar_eq_constPoly P.base hzt hz0 p a2
      · intro res hg
        rw [polynomial_mul_fmpq, gr_poly_mul_fmpq, hsf]
        exact hmul a2 res hg
    · intro hs
      cases s with
      | success => exact absurd rfl hs
      | domain =>
        exact ⟨by rw [polynomial_set_fmpq, gr_poly_set_fmpq, hsf],
          by rw [polynomial_add_fmpq, gr_poly_add_fmpq, hsf],
          by rw [polynomial_sub_fmpq, gr_poly_sub_fmpq, hsf],
          by rw [polynomial_mul_fmpq, gr_poly_mul_fmpq, hsf]⟩
      | unable =>
        exact ⟨by rw [polynomial_set_fmpq, gr_poly_set_fmpq, hsf],
          by rw [polynomial_add_fmpq, gr_poly_add_fmpq, hsf],
          by rw [polynomial_sub_fmpq, gr_poly_sub_fmpq, hsf],
          by rw [polynomial_mul_fmpq, gr_poly_mul_fmpq, hsf]⟩
      | domainUnable =>
        exact ⟨by rw [polynomial_set_fmpq, gr_poly_set_fmpq, hsf],
          by rw [polynomial_add_fmpq, gr_poly_add_fmpq, hsf],
          by rw [polynomial_sub_fmpq, gr_poly_sub_fmpq, hsf],
          by rw [polynomial_mul_fmpq, gr_poly_mul_fmpq, hsf]⟩

end ClaimScalarVariants

section Witnesses

/-- Witness for C1: a concrete exact division over the integers,
dividing the square of the polynomial 1 + x by 1 + x. -/
theorem polynomial_div_correct_witness :
    polynomial_div intPolyCtx false [1, 2, 1] [1, 1] = (Status.success, [1, 1])
    ∧ toPoly ([1, 1] : List Int) * toPoly ([1, 1] : List Int)
      = toPoly ([1, 2, 1] : List Int) := by
  have h := polynomial_div_correct intPolyCtx [1, 2, 1] [1, 1]
    intBase_sdiv_sound intBase_isZero_t
  have hdiv : polynomial_div intPolyCtx false [1, 2, 1] [1, 1]
      = (Status.success, [1, 1]) := by decide
  exact ⟨hdiv, (h.2 (by decide)).2.2 [1, 1] hdiv⟩

/-- Witness for C2: the refusal branch fires at ceiling 2, and the
unbounded context delegates to the base multiplication. -/
theorem polynomial_mul_ceiling_witness :
    polynomial_mul intPolyCtxLim2 [5] [1, 1] [1, 1] = (Status.unable, [5])
    ∧ polynomial_mul intPolyCtx [] [1, 1] [1, 1] = gr_poly_mul intBase [1, 1] [1, 1] :=
  ⟨(polynomial_mul_ceiling intPolyCtxLim2 [5] [1, 1] [1, 1]).1 2 rfl
      (by decide) (by decide) (by decide),
    (polynomial_mul_ceiling intPolyCtx [] [1, 1] [1, 1]).2.1 rfl⟩

/-- Witness for C3: a foreign operand from an unrelated ring falls
through to the scalar-coercion fallback, whose successful zero scalar
wraps to the (normalized) zero polynomial. -/
theorem polynomial_set_other_chain_witness :
    polynomial_set_other intPolyCtx argForeign = (Status.success, []) := by
  have h := (polynomial_set_other_chain intPolyCtx argForeign).2 (by decide)
    Status.success 0 rfl
  rw [h]
  decide

/-- Witness for C4: the base-ring scalar fast path at the scalar 3, and
the untouched result with propagated status when the fallback coercion
fails. -/
theorem polynomial_mixed_mul_witness :
    polynomial_mul_other intPolyCtx [] [1, 2] argScalar = (Status.success, [3, 6])
    ∧ polynomial_mul_other intPolyCtxFail [7] [1, 2] argForeign = (Status.domain, [7]) := by
  constructor
  · have h := (polynomial_mixed_mul intPolyCtx [] [1, 2] argScalar).1 rfl
    rw [h.1]
    decide
  · have h := (polynomial_mixed_mul intPolyCtxFail [7] [1, 2] argForeign).2.2
      (by decide) (by decide) Status.domain [] (by decide)
    exact (h.2 (by decide)).1

/-- Witness for C5 (amended): over the integers with no ceiling, the
`ui` scalar variants agree with multiplication and addition against the
degree-0 polynomial of the scalar 2; the rational variant agrees at the
integral rational 3, and at the rational 1/2 (not representable in the
integers) both routes fail with the same Domain status. -/
theorem scalar_variants_as_degree0_witness :
    polynomial_mul_ui intPolyCtx [1, 1] 2
      = polynomial_mul intPolyCtx [] [1, 1] (constPoly intBase ((2 : Nat) : Int))
    ∧ polynomial_add_ui intPolyCtx [1, 1] 2
      = polynomial_add intPolyCtx [1, 1] (constPoly intBase ((2 : Nat) : Int))
    ∧ polynomial_mul_fmpq intPolyCtx [1, 1] 3
      = polynomial_mul intPolyCtx [] [1, 1] (constPoly intBase 3)
    ∧ polynomial_mul_fmpq intPolyCtx [1, 1] (1 / 2) = (Status.domain, [])
    ∧ polynomial_set_fmpq intPolyCtx (1 / 2) = (Status.domain, []) := by
  have h := scalar_variants_as_degree0 intPolyCtx [1, 1] ((2 : Nat) : Int)
    intBase_isZero_t intBase_isZero_zero
  have hden : ((1 : Rat) / 2).den = 2 := by norm_num
  have hfail : intPolyCtx.base.setFmpq (1 / 2) = (Status.domain, 0) := by
    show intBase.setFmpq (1 / 2) = (Status.domain, 0)
    simp [intBase, hden]
  have hq := (h.2.2.2.2.2 3 Status.success 3 rfl).1 rfl
  have hqf := (h.2.2.2.2.2 (1 / 2) Status.domain 0 hfail).2 (by decide)
  exact ⟨(h.2.2.2.1 2).2.2 [] (by decide), (h.2.2.2.1 2).1,
    hq.2.2.2 [] (by decide), hqf.2.2.2, hqf.1⟩

end Witnesses

